import Mathlib

/-!
Shallow embedding of `src/market_simulator.py` (the `Market` class) and
verification of the specification's claims about it.

Modelling decisions:

* Python `dict` is embedded as an association list in insertion order with
  unique keys (`Dict`).  `d.get(k, v)` is `dictGetD`, `d[k] = v` is `dictSet`
  (replace in place when present, append when absent, exactly Python's
  semantics), iteration over the dict iterates over `dictKeys`.
* Prices are exact rationals `ℚ`.  Python `round(x, 2)` is `round2`,
  rounding to the nearest multiple of `1/100`.  (Python rounds ties of the
  underlying binary float to even; `round2` rounds ties up.  No quantity in
  this development sits at a tie, so the two agree on everything below.)
* The random draws are passed in as explicit oracles: `simulate_movement`
  takes the index `i : Fin 2` of the element that `random.choice` picks from
  the two-element list `[-0.01, 0.01]`, and `update_prices` takes the
  function `mv` giving the `random.uniform(-0.02, 0.02)` draw used for each
  symbol.
* Methods are embedded in state-passing style, returning the method's result
  paired with the post-state of the `Market` object.
* For failure semantics, each operation also has an `Except`-valued variant
  (`get_priceE`, ..., `update_pricesE`) in which Python's raising dict
  subscript `d[k]` is the partial lookup `dictSub?`; the source's
  `d.get(k, fallback)` is total and needs no error branch.
-/

namespace MarketSim

/-- Python dict with keys of type `String`: an association list in insertion
order.  The key-uniqueness invariant of real Python dicts is assumed where a
proof needs it (`List.Nodup` on `dictKeys`). -/
abbrev Dict (α : Type) : Type := List (String × α)

/-- Lookup, `none` when the key is absent (what Python's raising `d[k]`
tests). -/
def dictGet? {α : Type} (d : Dict α) (k : String) : Option α :=
  match d with
  | [] => none
  | (k', v) :: rest => if k' = k then some v else dictGet? rest k

/-- Python `d.get(k, dflt)`: total lookup with a default. -/
def dictGetD {α : Type} (d : Dict α) (k : String) (dflt : α) : α :=
  (dictGet? d k).getD dflt

/-- Python `k in d`. -/
def dictContains {α : Type} (d : Dict α) (k : String) : Bool :=
  (dictGet? d k).isSome

/-- Python `d[k] = v`: replace the value in place when the key is present,
append the new pair otherwise. -/
def dictSet {α : Type} (d : Dict α) (k : String) (v : α) : Dict α :=
  match d with
  | [] => [(k, v)]
  | (k', v') :: rest => if k' = k then (k, v) :: rest else (k', v') :: dictSet rest k v

/-- Python `list(d)` / `for k in d`: the keys in insertion order. -/
def dictKeys {α : Type} (d : Dict α) : List String :=
  d.map Prod.fst

/-- Python's raising subscript `d[k]`: `KeyError` when the key is absent. -/
def dictSub? {α : Type} (d : Dict α) (k : String) : Except String α :=
  match dictGet? d k with
  | some v => Except.ok v
  | none => Except.error "KeyError"

/-- Python `round(x, 2)`: round to the nearest multiple of `1/100`.
Stated with the executable `Rat.floor`; `round2_eq_round` relates it to
Mathlib's `round`. -/
def round2 (q : ℚ) : ℚ :=
  (((q * 100 + 1/2).floor : ℤ) : ℚ) / 100

/-- The state of a `Market` object: the `use_yfinance` flag (never read by
the four operations) and the symbol-to-price table `self.prices`. -/
structure Market where
  use_yfinance : Bool
  prices : Dict ℚ
deriving DecidableEq

/-- The seed table built by `Market.__init__`. -/
def seedPrices : Dict ℚ :=
  [("AAPL", 180), ("TSLA", 250), ("INFY", 1600), ("TCS", 3700),
   ("RELI", 2900), ("BTC", 65000), ("ETH", 3500), ("DOGE", 15/100)]

/-- Fresh `Market(use_yfinance=False)`. -/
def Market.init : Market :=
  ⟨false, seedPrices⟩

/-- A snapshot entry `{'price': p}`. -/
structure Quote where
  price : ℚ
deriving DecidableEq

/-- Embeds `Market.get_price`: `self.prices.get(symbol, 100.0)`, no state
change. -/
def Market.get_price (m : Market) (symbol : String) : ℚ × Market :=
  (dictGetD m.prices symbol 100, m)

/-- Embeds `Market.get_snapshot`: builds `snapshot[symbol] = {'price':
round(price, 2)}` for each requested symbol, no state change. -/
def Market.get_snapshot (m : Market) (symbols : List String) : Dict Quote × Market :=
  (symbols.foldl
    (fun snapshot symbol => dictSet snapshot symbol ⟨round2 (dictGetD m.prices symbol 100)⟩)
    [], m)

/-- The list `[-0.01, 0.01]` that `random.choice` draws from in
`simulate_movement`. -/
def movementChoices : List ℚ :=
  [-1/100, 1/100]

/-- The element of `movementChoices` picked by the oracle index `i`. -/
def chooseMovement (i : Fin 2) : ℚ :=
  movementChoices.get ⟨i.1, i.isLt⟩

/-- Embeds `Market.simulate_movement`.  Reads the current price with
fallback 100, applies the multiplicative step, stores the (unrounded) new
price, returns the rounded new price together with the raw step. -/
def Market.simulate_movement (m : Market) (symbol : String) (i : Fin 2) :
    (ℚ × ℚ) × Market :=
  let price := dictGetD m.prices symbol 100
  let movement := chooseMovement i
  let new_price := price * (1 + movement)
  ((round2 new_price, movement), ⟨m.use_yfinance, dictSet m.prices symbol new_price⟩)

/-- One iteration of the `update_prices` loop body for `symbol`:
`self.prices[symbol] *= (1 + movement)` then
`self.prices[symbol] = round(self.prices[symbol], 2)`.  The raising
subscript `self.prices[symbol]` is modelled with junk default 0 here — the
loop only visits present keys, so the default is never consulted; the
`Except` variant `updateStepE` models the raising lookup faithfully. -/
def updateStep (mv : String → ℚ) (prices : Dict ℚ) (symbol : String) : Dict ℚ :=
  let movement := mv symbol
  let prices1 := dictSet prices symbol (dictGetD prices symbol 0 * (1 + movement))
  dictSet prices1 symbol (round2 (dictGetD prices1 symbol 0))

/-- Embeds `Market.update_prices`: iterate over the keys of `self.prices`,
applying `updateStep` with the uniform draw `mv symbol` for each. -/
def Market.update_prices (m : Market) (mv : String → ℚ) : Market :=
  ⟨m.use_yfinance, (dictKeys m.prices).foldl (updateStep mv) m.prices⟩

/-- Except-valued variant of `get_price`.  Every primitive in the source
body (`dict.get` with default) is total, so no error branch exists. -/
def Market.get_priceE (m : Market) (symbol : String) : Except String (ℚ × Market) :=
  Except.ok (dictGetD m.prices symbol 100, m)

/-- Except-valued variant of `get_snapshot`; the loop body uses only the
total `dict.get` with default. -/
def Market.get_snapshotE (m : Market) (symbols : List String) :
    Except String (Dict Quote × Market) :=
  Except.ok (symbols.foldl
    (fun snapshot symbol => dictSet snapshot symbol ⟨round2 (dictGetD m.prices symbol 100)⟩)
    [], m)

/-- Except-valued variant of `simulate_movement`; the body uses only the
total `dict.get` with default and dict assignment. -/
def Market.simulate_movementE (m : Market) (symbol : String) (i : Fin 2) :
    Except String ((ℚ × ℚ) × Market) :=
  let price := dictGetD m.prices symbol 100
  let movement := chooseMovement i
  let new_price := price * (1 + movement)
  Except.ok ((round2 new_price, movement), ⟨m.use_yfinance, dictSet m.prices symbol new_price⟩)

/-- Except-valued loop body of `update_prices`, with the two raising
subscript reads `self.prices[symbol]` modelled by `dictSub?`. -/
def updateStepE (mv : String → ℚ) (prices : Dict ℚ) (symbol : String) :
    Except String (Dict ℚ) :=
  (dictSub? prices symbol).bind fun cur =>
    let prices1 := dictSet prices symbol (cur * (1 + mv symbol))
    (dictSub? prices1 symbol).bind fun cur1 =>
      Except.ok (dictSet prices1 symbol (round2 cur1))

/-- Except-valued variant of `update_prices`. -/
def Market.update_pricesE (m : Market) (mv : String → ℚ) : Except String Market :=
  Except.map (fun prices => ⟨m.use_yfinance, prices⟩)
    ((dictKeys m.prices).foldlM (updateStepE mv) m.prices)

/-- Unfolding of `round2` through Mathlib's `Int.floor` (the floor instance
on `ℚ` is definitionally `Rat.floor`). -/
theorem round2_def (q : ℚ) : round2 q = ((⌊q * 100 + 1/2⌋ : ℤ) : ℚ) / 100 :=
  rfl

/-- Relation of `round2` to Mathlib's `round`. -/
theorem round2_eq_round (q : ℚ) : round2 q = ((round (q * 100) : ℤ) : ℚ) / 100 := by
  rw [round2_def, round_eq]

/-- Reads (non-mutating queries) of the market, for stating persistence of
fallback prices under arbitrary query sequences. -/
inductive ReadOp : Type
  | price (s : String)
  | snapshot (ss : List String)

/-- Run a sequence of reads, threading the market state. -/
def applyReads (m : Market) (ops : List ReadOp) : Market :=
  ops.foldl
    (fun m op =>
      match op with
      | ReadOp.price s => (m.get_price s).2
      | ReadOp.snapshot ss => (m.get_snapshot ss).2)
    m

/-! ### Dictionary lemmas -/

theorem dictGet?_set_self {α : Type} (d : Dict α) (k : String) (v : α) :
    dictGet? (dictSet d k v) k = some v := by
  induction d with
  | nil => simp [dictSet, dictGet?]
  | cons hd tl ih =>
    obtain ⟨k', v'⟩ := hd
    by_cases h : k' = k <;> simp [dictSet, dictGet?, h, ih]

theorem dictGet?_set_ne {α : Type} (d : Dict α) (k t : String) (v : α) (h : t ≠ k) :
    dictGet? (dictSet d k v) t = dictGet? d t := by
  induction d with
  | nil => simp [dictSet, dictGet?, Ne.symm h]
  | cons hd tl ih =>
    obtain ⟨k', v'⟩ := hd
    by_cases hk : k' = k
    · subst hk
      simp [dictSet, dictGet?, Ne.symm h]
    · simp [dictSet, dictGet?, hk, ih]

theorem dictContains_set_self {α : Type} (d : Dict α) (k : String) (v : α) :
    dictContains (dictSet d k v) k = true := by
  simp [dictContains, dictGet?_set_self]

theorem dictContains_set {α : Type} (d : Dict α) (k k' : String) (v : α)
    (h : dictContains d k' = true) : dictContains (dictSet d k v) k' = true := by
  by_cases hk : k' = k
  · subst hk; exact dictContains_set_self d k' v
  · simpa [dictContains, dictGet?_set_ne d k k' v hk] using h

theorem dictKeys_set_of_contains {α : Type} (d : Dict α) (k : String) (v : α)
    (h : dictContains d k = true) : dictKeys (dictSet d k v) = dictKeys d := by
  induction d with
  | nil => simp [dictContains, dictGet?] at h
  | cons hd tl ih =>
    obtain ⟨k', v'⟩ := hd
    by_cases hk : k' = k
    · simp [dictSet, dictKeys, hk]
    · have h' : dictContains tl k = true := by
        simpa [dictContains, dictGet?, hk] using h
      simp [dictSet, dictKeys, hk]
      simpa [dictKeys] using ih h'

theorem dictContains_iff_mem_keys {α : Type} (d : Dict α) (k : String) :
    dictContains d k = true ↔ k ∈ dictKeys d := by
  induction d with
  | nil => simp [dictContains, dictGet?, dictKeys]
  | cons hd tl ih =>
    obtain ⟨k', v'⟩ := hd
    have hdk : dictKeys ((k', v') :: tl) = k' :: dictKeys tl := rfl
    rw [hdk, List.mem_cons]
    by_cases hk : k' = k
    · simp [dictContains, dictGet?, hk]
    · have h1 : dictContains ((k', v') :: tl) k = dictContains tl k := by
        simp [dictContains, dictGet?, hk]
      rw [h1, ih]
      constructor
      · exact Or.inr
      · intro h
        cases h with
        | inl hh => exact absurd hh.symm hk
        | inr hh => exact hh

theorem dictGetD_of_get? {α : Type} (d : Dict α) (k : String) (v dflt : α)
    (h : dictGet? d k = some v) : dictGetD d k dflt = v := by
  simp [dictGetD, h]

/-! ### Lemmas about the update-prices loop body -/

theorem updateStep_get_self (mv : String → ℚ) (d : Dict ℚ) (k : String) :
    dictGet? (updateStep mv d k) k = some (round2 (dictGetD d k 0 * (1 + mv k))) := by
  simp [updateStep, dictGet?_set_self, dictGetD]

theorem updateStep_get_ne (mv : String → ℚ) (d : Dict ℚ) (k t : String) (h : t ≠ k) :
    dictGet? (updateStep mv d k) t = dictGet? d t := by
  simp [updateStep, dictGet?_set_ne _ _ _ _ h]

theorem updateStep_contains (mv : String → ℚ) (d : Dict ℚ) (k k' : String)
    (h : dictContains d k' = true) : dictContains (updateStep mv d k) k' = true :=
  dictContains_set _ _ _ _ (dictContains_set _ _ _ _ h)

theorem updateStep_keys (mv : String → ℚ) (d : Dict ℚ) (k : String)
    (h : dictContains d k = true) : dictKeys (updateStep mv d k) = dictKeys d := by
  rw [updateStep]
  rw [dictKeys_set_of_contains _ _ _ (dictContains_set_self _ _ _)]
  exact dictKeys_set_of_contains _ _ _ h

theorem foldl_updateStep_get_of_not_mem (mv : String → ℚ) (l : List String) (s : String)
    (h : s ∉ l) :
    ∀ d : Dict ℚ, dictGet? (l.foldl (updateStep mv) d) s = dictGet? d s := by
  induction l with
  | nil => intro d; rfl
  | cons k t ih =>
    intro d
    rw [List.foldl_cons, ih (fun hm => h (List.mem_cons_of_mem k hm)),
      updateStep_get_ne mv d k s (fun he => h (he ▸ List.mem_cons_self k t))]

theorem foldl_updateStep_get_of_mem (mv : String → ℚ) (l : List String) (s : String)
    (p : ℚ) (hnd : l.Nodup) (hmem : s ∈ l) :
    ∀ d : Dict ℚ, dictGet? d s = some p →
      dictGet? (l.foldl (updateStep mv) d) s = some (round2 (p * (1 + mv s))) := by
  induction l with
  | nil => cases hmem
  | cons k t ih =>
    intro d hd
    rw [List.foldl_cons]
    by_cases hk : s = k
    · subst hk
      have hnt : s ∉ t := (List.nodup_cons.mp hnd).1
      rw [foldl_updateStep_get_of_not_mem mv t s hnt, updateStep_get_self,
        dictGetD_of_get? d s p 0 hd]
    · have hmt : s ∈ t := by
        cases List.mem_cons.mp hmem with
        | inl hh => exact absurd hh hk
        | inr hh => exact hh
      exact ih (List.nodup_cons.mp hnd).2 hmt (updateStep mv d k)
        ((updateStep_get_ne mv d k s hk).trans hd)

theorem foldl_updateStep_keys (mv : String → ℚ) (l : List String) :
    ∀ d : Dict ℚ, (∀ k ∈ l, dictContains d k = true) →
      dictKeys (l.foldl (updateStep mv) d) = dictKeys d := by
  induction l with
  | nil => intro d _; rfl
  | cons k t ih =>
    intro d h
    rw [List.foldl_cons,
      ih (updateStep mv d k)
        (fun k' hk' => updateStep_contains mv d k k' (h k' (List.mem_cons_of_mem k hk'))),
      updateStep_keys mv d k (h k (List.mem_cons_self k t))]

/-! ### Totality of the Except-valued variants -/

theorem updateStepE_eq_ok (mv : String → ℚ) (d : Dict ℚ) (k : String)
    (h : dictContains d k = true) :
    updateStepE mv d k = Except.ok (updateStep mv d k) := by
  obtain ⟨c, hc⟩ := Option.isSome_iff_exists.mp h
  simp [updateStepE, updateStep, dictSub?, hc, dictGet?_set_self, Except.bind, dictGetD]

theorem foldlM_updateStepE_eq_ok (mv : String → ℚ) (l : List String) :
    ∀ d : Dict ℚ, (∀ k ∈ l, dictContains d k = true) →
      l.foldlM (updateStepE mv) d = Except.ok (l.foldl (updateStep mv) d) := by
  induction l with
  | nil => intro d _; rfl
  | cons k t ih =>
    intro d h
    rw [List.foldlM_cons, updateStepE_eq_ok mv d k (h k (List.mem_cons_self k t))]
    show t.foldlM (updateStepE mv) (updateStep mv d k) = _
    rw [ih (updateStep mv d k)
      (fun k' hk' => updateStep_contains mv d k k' (h k' (List.mem_cons_of_mem k hk'))),
      List.foldl_cons]

theorem update_pricesE_eq_ok (m : Market) (mv : String → ℚ) :
    m.update_pricesE mv = Except.ok (m.update_prices mv) := by
  rw [Market.update_pricesE, Market.update_prices,
    foldlM_updateStepE_eq_ok mv (dictKeys m.prices) m.prices
      (fun k hk => (dictContains_iff_mem_keys m.prices k).mpr hk)]
  rfl

/-! ### Rounding bound -/

theorem abs_round2_sub_le (x : ℚ) : |round2 x - x| ≤ 1/200 := by
  rw [round2_eq_round]
  have h : |x * 100 - ((round (x * 100) : ℤ) : ℚ)| ≤ 1/2 := abs_sub_round (x * 100)
  have h2 : ((round (x * 100) : ℤ) : ℚ) / 100 - x
      = -(x * 100 - ((round (x * 100) : ℤ) : ℚ)) / 100 := by
    ring
  rw [h2, abs_div, abs_neg]
  rw [show |(100:ℚ)| = 100 from by norm_num]
  linarith

theorem dictGet?_eq_none_of_not_contains {α : Type} (d : Dict α) (k : String)
    (h : dictContains d k = false) : dictGet? d k = none := by
  cases hh : dictGet? d k with
  | none => rfl
  | some v => rw [dictContains, hh] at h; simp at h

theorem applyReads_eq (m : Market) (ops : List ReadOp) : applyReads m ops = m := by
  induction ops with
  | nil => rfl
  | cons op t ih =>
    cases op with
    | price s => exact ih
    | snapshot ss => exact ih

/-! ### The claims -/

/-- C1, counterexample to the claim as stated: starting from the seed table,
`simulate_movement("DOGE")` with an upward step stores `0.15 * 1.01 = 0.1515`
into the table, which is not the rounded value `0.15` it returns as the
first component of its result. -/
theorem C1_counterexample :
    dictGet? (((Market.init).simulate_movement "DOGE" 1).2).prices "DOGE"
      ≠ some (((Market.init).simulate_movement "DOGE" 1).1.1) := by
  simp [Market.init, Market.simulate_movement, seedPrices, dictGetD, dictGet?, dictSet,
    chooseMovement, movementChoices, round2_def]
  norm_num

/-- C1, amended: for every table state and every symbol, `simulate_movement`
stores into the price table the UNROUNDED new price `price * (1 + step)`,
and returns as the first component of its result that value rounded to 2
decimal places; the stored value is the rounded one only when the new price
happens to already have at most 2 decimals. -/
theorem C1_amended (m : Market) (symbol : String) (i : Fin 2) :
    (m.simulate_movement symbol i).1.1
        = round2 (dictGetD m.prices symbol 100 * (1 + chooseMovement i)) ∧
    dictGet? (m.simulate_movement symbol i).2.prices symbol
        = some (dictGetD m.prices symbol 100 * (1 + chooseMovement i)) :=
  ⟨rfl, dictGet?_set_self _ _ _⟩

/-- C2, counterexample to the claim as stated: querying the unseen symbol
"ZZZ" through `get_price` or `get_snapshot` does NOT make "ZZZ" a key of the
price table. -/
theorem C2_counterexample :
    dictContains ((Market.init).get_price "ZZZ").2.prices "ZZZ" = false ∧
    dictContains (((Market.init).get_snapshot ["ZZZ"]).2).prices "ZZZ" = false := by
  constructor <;> decide

/-- C2, amended: querying a symbol via `get_price` or `get_snapshot` leaves
the price table unchanged and in particular does not add the symbol as a
key; the table is total at the READ level only, in that queries of an
absent symbol return the fallback price 100.0 instead of failing. -/
theorem C2_amended (m : Market) (s : String) (h : dictContains m.prices s = false) :
    (m.get_price s).2 = m ∧ (m.get_snapshot [s]).2 = m ∧
    dictContains ((m.get_price s).2).prices s = false ∧
    dictContains (((m.get_snapshot [s]).2)).prices s = false ∧
    (m.get_price s).1 = 100 ∧
    dictGet? (m.get_snapshot [s]).1 s = some ⟨round2 100⟩ := by
  have hn := dictGet?_eq_none_of_not_contains m.prices s h
  refine ⟨rfl, rfl, h, h, ?_, ?_⟩
  · simp [Market.get_price, dictGetD, hn]
  · simp [Market.get_snapshot, dictGetD, hn, dictSet, dictGet?]

/-- C2, witness for the amended claim at the fresh market and symbol
"ZZZ". -/
theorem C2_amended_witness :
    dictContains (Market.init).prices "ZZZ" = false ∧
    (((Market.init).get_price "ZZZ").2 = Market.init ∧
      ((Market.init).get_snapshot ["ZZZ"]).2 = Market.init ∧
      dictContains (((Market.init).get_price "ZZZ").2).prices "ZZZ" = false ∧
      dictContains ((((Market.init).get_snapshot ["ZZZ"]).2)).prices "ZZZ" = false ∧
      ((Market.init).get_price "ZZZ").1 = 100 ∧
      dictGet? ((Market.init).get_snapshot ["ZZZ"]).1 "ZZZ" = some ⟨round2 100⟩) :=
  ⟨by decide, C2_amended Market.init "ZZZ" (by decide)⟩

/-- C3, counterexample to the claim as stated: in the table `{"X": 0.014}`,
a draw of `0.019` (inside `[-0.02, 0.02]`) moves the stored price to
`round(0.014 * 1.019, 2) = 0.01`, which differs from `0.014` by `0.004`,
far more than 2% of `0.014`. -/
theorem C3_counterexample :
    (-(1/50) ≤ (19:ℚ)/1000 ∧ (19:ℚ)/1000 ≤ 1/50) ∧
    ¬ (|dictGetD ((⟨false, [("X", 7/500)]⟩ : Market).update_prices fun _ => 19/1000).prices
          "X" 0 - 7/500| ≤ (1/50) * (7/500)) := by
  refine ⟨⟨by norm_num, by norm_num⟩, ?_⟩
  have hx : dictGetD ((⟨false, [("X", 7/500)]⟩ : Market).update_prices
      fun _ => 19/1000).prices "X" 0 = 1/100 := by
    simp [Market.update_prices, dictKeys, updateStep, dictGetD, dictGet?, dictSet, round2_def]
    norm_num
  rw [hx]
  intro hc
  rw [abs_le] at hc
  norm_num at hc

/-- C3, amended: for every table state with distinct keys and every symbol
present with pre-call price `p ≥ 0`, one `update_prices` call whose draw
for that symbol lies in `[-2%, 2%]` stores `round(p * (1 + m), 2)`, which
differs from `p` by at most 2% of `p` PLUS half of the rounding quantum
(`0.005`); and `update_prices` adds no new symbol keys. -/
theorem C3_amended (m : Market) (s : String) (p : ℚ) (mv : String → ℚ)
    (hnd : (dictKeys m.prices).Nodup) (hs : dictGet? m.prices s = some p)
    (hp : 0 ≤ p) (hmv : |mv s| ≤ 1/50) :
    dictGet? (m.update_prices mv).prices s = some (round2 (p * (1 + mv s))) ∧
    |round2 (p * (1 + mv s)) - p| ≤ p * (1/50) + 1/200 ∧
    dictKeys (m.update_prices mv).prices = dictKeys m.prices := by
  refine ⟨?_, ?_, ?_⟩
  · exact foldl_updateStep_get_of_mem mv (dictKeys m.prices) s p hnd
      ((dictContains_iff_mem_keys m.prices s).mp (by simp [dictContains, hs])) m.prices hs
  · have h1 := abs_round2_sub_le (p * (1 + mv s))
    have h3 := abs_sub_le (round2 (p * (1 + mv s))) (p * (1 + mv s)) p
    have h2 : |p * (1 + mv s) - p| = p * |mv s| := by
      rw [show p * (1 + mv s) - p = p * mv s by ring, abs_mul, abs_of_nonneg hp]
    have h4 : p * |mv s| ≤ p * (1/50) := mul_le_mul_of_nonneg_left hmv hp
    rw [h2] at h3
    linarith
  · exact foldl_updateStep_keys mv (dictKeys m.prices) m.prices
      (fun k hk => (dictContains_iff_mem_keys m.prices k).mpr hk)

/-- C3, witness for the amended claim: seed table, symbol "AAPL" at price
180, constant draw `+1%`. -/
theorem C3_amended_witness :
    ((dictKeys (Market.init).prices).Nodup ∧
      dictGet? (Market.init).prices "AAPL" = some 180 ∧
      (0:ℚ) ≤ 180 ∧ |(1:ℚ)/100| ≤ 1/50) ∧
    (dictGet? ((Market.init).update_prices fun _ => 1/100).prices "AAPL"
        = some (round2 (180 * (1 + 1/100))) ∧
      |round2 (180 * (1 + 1/100)) - 180| ≤ 180 * (1/50) + 1/200 ∧
      dictKeys ((Market.init).update_prices fun _ => 1/100).prices
        = dictKeys (Market.init).prices) :=
  ⟨⟨by decide, by decide, by norm_num, by rw [abs_le]; constructor <;> norm_num⟩,
   C3_amended Market.init "AAPL" 180 (fun _ => 1/100) (by decide) (by decide)
     (by norm_num) (by rw [abs_le]; constructor <;> norm_num)⟩

/-- C4: from the seed table, `simulate_movement("AAPL")` returns a step that
is exactly `+0.01` or `-0.01` and the new price `round(180 * (1 + step), 2)`;
it stores `180 * (1 + step)`, which differs from the seed price 180, and a
second call computes from that stored price, not from 180. -/
theorem C4 (i j : Fin 2) :
    (chooseMovement i = 1/100 ∨ chooseMovement i = -1/100) ∧
    ((Market.init).simulate_movement "AAPL" i).1.2 = chooseMovement i ∧
    ((Market.init).simulate_movement "AAPL" i).1.1 = round2 (180 * (1 + chooseMovement i)) ∧
    dictGet? ((Market.init).simulate_movement "AAPL" i).2.prices "AAPL"
      = some (180 * (1 + chooseMovement i)) ∧
    180 * (1 + chooseMovement i) ≠ 180 ∧
    (((Market.init).simulate_movement "AAPL" i).2.simulate_movement "AAPL" j).1.1
      = round2 ((180 * (1 + chooseMovement i)) * (1 + chooseMovement j)) := by
  fin_cases i <;> fin_cases j <;>
    refine ⟨by first | exact Or.inl rfl | exact Or.inr rfl, rfl, ?_, ?_, ?_, ?_⟩ <;>
    simp [Market.init, Market.simulate_movement, seedPrices, chooseMovement, movementChoices,
      dictGetD, dictGet?, dictSet, round2_def]

/-- C5: a symbol absent from the table is priced at the fallback 100.0 by
`get_price`, and stays so across any sequence of `get_price` /
`get_snapshot` calls (which never mutate the table). -/
theorem C5 (m : Market) (s : String) (ops : List ReadOp)
    (h : dictContains m.prices s = false) :
    (m.get_price s).1 = 100 ∧ ((applyReads m ops).get_price s).1 = 100 := by
  have hn := dictGet?_eq_none_of_not_contains m.prices s h
  rw [applyReads_eq]
  constructor <;> simp [Market.get_price, dictGetD, hn]

/-- C5, witness at the fresh market, symbol "ZZZ", and a concrete sequence
of reads. -/
theorem C5_witness :
    dictContains (Market.init).prices "ZZZ" = false ∧
    (((Market.init).get_price "ZZZ").1 = 100 ∧
      (Market.get_price
        (applyReads Market.init
          [ReadOp.price "ZZZ", ReadOp.snapshot ["ZZZ", "AAPL"], ReadOp.price "ZZZ"])
        "ZZZ").1 = 100) :=
  ⟨by decide,
   C5 Market.init "ZZZ"
     [ReadOp.price "ZZZ", ReadOp.snapshot ["ZZZ", "AAPL"], ReadOp.price "ZZZ"]
     (by decide)⟩

/-- C6: with no intervening mutation, the snapshot price of any symbol is
exactly the 2-decimal rounding of its `get_price` value. -/
theorem C6 (m : Market) (s : String) :
    dictGet? (m.get_snapshot [s]).1 s = some ⟨round2 (m.get_price s).1⟩ := by
  simp [Market.get_snapshot, Market.get_price, dictSet, dictGet?]

/-- C7: `get_price` and `get_snapshot` leave the price table unchanged, and
`simulate_movement(s)` changes no table entry other than the one for `s`. -/
theorem C7 (m : Market) (symbols : List String) (s t : String) (i : Fin 2)
    (h : t ≠ s) :
    (m.get_price s).2 = m ∧ (m.get_snapshot symbols).2 = m ∧
    dictGet? (m.simulate_movement s i).2.prices t = dictGet? m.prices t :=
  ⟨rfl, rfl, dictGet?_set_ne m.prices s t _ h⟩

/-- C7, witness at the fresh market with distinct symbols "AAPL" and
"TSLA". -/
theorem C7_witness :
    ("TSLA" : String) ≠ "AAPL" ∧
    (((Market.init).get_price "AAPL").2 = Market.init ∧
      ((Market.init).get_snapshot []).2 = Market.init ∧
      dictGet? ((Market.init).simulate_movement "AAPL" 0).2.prices "TSLA"
        = dictGet? (Market.init).prices "TSLA") :=
  ⟨by decide, C7 Market.init [] "AAPL" "TSLA" 0 (by decide)⟩

/-- C8: none of the four operations can raise: each Except-valued variant
(in which Python's raising dict subscript is modelled as a genuine error
branch) returns `ok` of the pure result for every market state, arbitrary
string symbol, arbitrary symbol list (including the empty one), and
arbitrary draws. -/
theorem C8 (m : Market) (symbol : String) (symbols : List String) (i : Fin 2)
    (mv : String → ℚ) :
    m.get_priceE symbol = Except.ok (m.get_price symbol) ∧
    m.get_snapshotE symbols = Except.ok (m.get_snapshot symbols) ∧
    m.simulate_movementE symbol i = Except.ok (m.simulate_movement symbol i) ∧
    m.update_pricesE mv = Except.ok (m.update_prices mv) :=
  ⟨rfl, rfl, rfl, update_pricesE_eq_ok m mv⟩

/-- C9: the rounded price returned by `simulate_movement(s)` is exactly what
an immediately following `get_snapshot([s])` reports for `s` (namely the
2-decimal rounding of the value the call stored). -/
theorem C9 (m : Market) (s : String) (i : Fin 2) :
    dictGet? ((m.simulate_movement s i).2.get_snapshot [s]).1 s
      = some ⟨(m.simulate_movement s i).1.1⟩ := by
  simp [Market.get_snapshot, Market.simulate_movement, dictGetD, dictGet?_set_self,
    dictSet, dictGet?]

/-- C10: for a symbol absent from the table, `simulate_movement(s)` adds the
key `s` with the (unrounded) price `100 * (1 + step)`, while `get_price(s)`
and `get_snapshot([s])` leave `s` absent. -/
theorem C10 (m : Market) (s : String) (i : Fin 2)
    (h : dictContains m.prices s = false) :
    dictGet? (m.simulate_movement s i).2.prices s
      = some (100 * (1 + chooseMovement i)) ∧
    dictContains ((m.get_price s).2).prices s = false ∧
    dictContains (((m.get_snapshot [s]).2)).prices s = false := by
  have hn := dictGet?_eq_none_of_not_contains m.prices s h
  refine ⟨?_, h, h⟩
  have hd : dictGetD m.prices s 100 = 100 := by simp [dictGetD, hn]
  calc dictGet? (m.simulate_movement s i).2.prices s
      = some (dictGetD m.prices s 100 * (1 + chooseMovement i)) :=
        dictGet?_set_self _ _ _
    _ = some (100 * (1 + chooseMovement i)) := by rw [hd]

/-- C10, witness at the fresh market and symbol "ZZZ". -/
theorem C10_witness :
    dictContains (Market.init).prices "ZZZ" = false ∧
    (dictGet? ((Market.init).simulate_movement "ZZZ" 0).2.prices "ZZZ"
        = some (100 * (1 + chooseMovement 0)) ∧
      dictContains (((Market.init).get_price "ZZZ").2).prices "ZZZ" = false ∧
      dictContains ((((Market.init).get_snapshot ["ZZZ"]).2)).prices "ZZZ" = false) :=
  ⟨by decide, C10 Market.init "ZZZ" 0 (by decide)⟩

end MarketSim
